import Mathlib

/-!
# Verification of the Task cancellation core (src/async/Task.ts)

This development shallowly embeds the `Task` class of `src/src/async/Task.ts`:
a cancelable extension of a three-state deferred value ("Promise") with a
fourth terminal state `Canceled`, a tree of child tasks created by chaining,
and a cancellation-propagation routine `_cancel`.

The embedding represents a root task together with all of its descendants as
a finite tree.  Each node carries the fields of the TypeScript object that the
claims are about:

* `state`        — `this._state` (Pending / Fulfilled / Rejected / Canceled);
* `tid`          — an identity label used only by the event log;
* `hookId`       — identity of the user-supplied cancel hook (`canceler`
                   constructor argument, src line 13; meaningful for roots:
                   derived tasks get the generated canceler of src lines
                   114-124 instead);
* `hasFinally`   — whether `this._finally` is set (src lines 50, 92-97);
* `finId`        — identity label of the `finally` callback;
* `finThrows`    — whether the `finally` callback throws when invoked;
* `finReturnsThenable` — whether the `finally` callback returns a pending
                   thenable (its declared type is `void | Thenable<any>`).

Procedures with side effects (cancel hooks, finalizers, handlers) are
modelled as opaque: running one is recorded as an event in an event log, so
that claims about "is invoked", "is invoked once", and invocation order can
be stated about the log.

The base `Promise` class is part of the repository but its source is not
available here; where its behaviour matters it is modelled from the spec
(each such definition says so in its doc comment).
-/

namespace TaskModel

/-- The four task states.  `canceled` embeds `export let Canceled = <State> 4`
(src line 3); the other three are the base future's `State`. -/
inductive TState where
  | pending
  | fulfilled
  | rejected
  | canceled
deriving Repr, DecidableEq

/-- `isSettled s` means the base future has resolved: Fulfilled or Rejected. -/
def isSettled : TState → Bool
  | .fulfilled => true
  | .rejected => true
  | _ => false

/-- The `finallyTask` parameter of `_cancel` (src line 58), of TypeScript type
`void | Thenable<any>`: either `undefined` or a thenable.  Thenables are
identified by a numeric id allocated when they are created. -/
inductive FinRes where
  | none
  | thenable (id : Nat)
deriving Repr, DecidableEq

/-- The per-task fields of the embedding (see the file header). -/
structure TaskData where
  tid : Nat
  state : TState
  hookId : Nat
  hasFinally : Bool
  finId : Nat
  finThrows : Bool
  finReturnsThenable : Bool
deriving Repr, DecidableEq

mutual
/-- A root task together with all of its registered descendants.
`children` is `this.children` (src line 45), in registration order
(children are only ever appended, by `then`, src line 127). -/
inductive TaskTree where
  | mk (d : TaskData) (children : TaskForest)
/-- A list of sibling task trees. -/
inductive TaskForest where
  | nil
  | cons (t : TaskTree) (ts : TaskForest)
end

/-- The `TaskData` of a tree's root node. -/
def TaskTree.data : TaskTree → TaskData
  | .mk d _ => d

/-- The children forest of a tree's root node. -/
def TaskTree.childrenOf : TaskTree → TaskForest
  | .mk _ cs => cs

/-- The state of a tree's root node. -/
def TaskTree.rootState (t : TaskTree) : TState :=
  t.data.state

/-- Observable effects of running the model.  Procedures are opaque: invoking
one is recorded as an event.
* `hook h`           — the user cancel hook `h` ran (src line 32);
* `setCanceled tid`  — `this._state = Canceled` executed for task `tid`
                       (src line 59);
* `finRun f threw`   — the `finally` callback `f` was invoked synchronously
                       by `runFinally` (src lines 61-68, 75); `threw` records
                       that it raised an error, which was caught and ignored;
* `attach f k k2`    — the `finally` callback `f` was attached with
                       `finallyTask.then(runFinally, runFinally)` (src line
                       72) to run only after thenable `k` settles, producing
                       the new thenable `k2`;
* `settled tid`      — the base future of task `tid` settled (executor
                       resolve/reject for a root, deferred handler invocation
                       for a derived task). -/
inductive Event where
  | hook (h : Nat)
  | setCanceled (tid : Nat)
  | finRun (f : Nat) (threw : Bool)
  | attach (f : Nat) (waitsOn : Nat) (newTh : Nat)
  | settled (tid : Nat)
deriving Repr, DecidableEq

/-- `runFinally` (src lines 61-68): invoke `this._finally()`; any error it
raises is caught and completely ignored, in which case the result is
`undefined`.  Otherwise the result is the callback's return value: either
`undefined` (`FinRes.none`) or a thenable, for which a fresh id is drawn from
the counter `c`. -/
def runFinallyRes (d : TaskData) (c : Nat) : FinRes × Nat :=
  if d.finThrows then (.none, c)
  else if d.finReturnsThenable then (.thenable c, c + 1)
  else (.none, c)

/-- The finalizer step of `_cancel` (src lines 70-77): if `this._finally` is
set, either attach it to an incoming thenable `finallyTask` via
`finallyTask.then(runFinally, runFinally)` (src line 72), or run it now via
`runFinally()` (src line 75); the result becomes the new `finallyTask`.
If `this._finally` is not set, `finallyTask` is passed on unchanged.
Returns (new finallyTask, events, new thenable counter). -/
def finStep (d : TaskData) (fr : FinRes) (c : Nat) : FinRes × List Event × Nat :=
  if d.hasFinally then
    match fr with
    | .thenable k => (.thenable c, [.attach d.finId k c], c + 1)
    | .none =>
      let r := runFinallyRes d c
      (r.1, [.finRun d.finId d.finThrows], r.2)
  else (fr, [], c)

mutual
/-- `_cancel` (src lines 58-80), the cancellation-propagation routine.
The task's state is set to `Canceled` first (src line 59), then the
finalizer step runs, then every child is visited with the finallyTask
computed by the finalizer step (all children receive the same value).
Returns the updated tree, the events in execution order, and the updated
thenable counter. -/
def cancelT : TaskTree → FinRes → Nat → TaskTree × List Event × Nat
  | .mk d cs, fr, c =>
    let fs := finStep d fr c
    let rc := cancelF cs fs.1 fs.2.2
    (.mk { d with state := .canceled } rc.1,
     .setCanceled d.tid :: fs.2.1 ++ rc.2.1,
     rc.2.2)
/-- `_cancel`'s action on a forest of children: `this.children.forEach(child
=> child._cancel(finallyTask))` (src line 79). -/
def cancelF : TaskForest → FinRes → Nat → TaskForest × List Event × Nat
  | .nil, _, c => (.nil, [], c)
  | .cons t ts, fr, c =>
    let r1 := cancelT t fr c
    let r2 := cancelF ts fr r1.2.2
    (.cons r1.1 r2.1, r1.2.1 ++ r2.2.1, r2.2.2)
end

/-- Index lookup in a children forest (`this.children[i]`). -/
def forestGet : TaskForest → Nat → Option TaskTree
  | .nil, _ => none
  | .cons t _, 0 => some t
  | .cons _ ts, i + 1 => forestGet ts i

/-- Replace the `i`-th element of a children forest. -/
def forestSet : TaskForest → Nat → TaskTree → TaskForest
  | .nil, _, _ => .nil
  | .cons _ ts, 0, x => .cons x ts
  | .cons t ts, i + 1, x => .cons t (forestSet ts i x)

/-- Append a child at the end of a children forest (`this.children.push`,
src line 127). -/
def forestAppend : TaskForest → TaskTree → TaskForest
  | .nil, x => .cons x .nil
  | .cons t ts, x => .cons t (forestAppend ts x)

/-- Number of children in a forest. -/
def forestLen : TaskForest → Nat
  | .nil => 0
  | .cons _ ts => forestLen ts + 1

/-- The task reached from the root by following a path of child indices. -/
def nodeAt : TaskTree → List Nat → Option TaskTree
  | t, [] => some t
  | .mk _ cs, i :: p =>
    match forestGet cs i with
    | some c => nodeAt c p
    | none => none

/-- The state of the task at a path, when the path is valid. -/
def stateAt (t : TaskTree) (p : List Nat) : Option TState :=
  (nodeAt t p).map TaskTree.rootState

/-- Replace the subtree at a path (identity if the path is invalid). -/
def replaceAt : List Nat → TaskTree → TaskTree → TaskTree
  | [], _, new => new
  | i :: p, .mk d cs, new =>
    match forestGet cs i with
    | some c => .mk d (forestSet cs i (replaceAt p c new))
    | none => .mk d cs

/-- `cancel()` (src lines 86-90) applied to the task at path `rp.reverse`
inside the tree, taking the generated canceler of derived tasks
(src lines 114-124) into account.  The path is passed reversed so that
upward escalation is structural recursion.

* `cancel()` is a no-op unless the task is Pending (src line 87).
* A root task's canceler runs the user hook and then `this._cancel()`
  (src lines 31-34).
* A derived task's canceler (src lines 114-124) checks the parent: if the
  parent is still Pending it calls `parent.cancel()` (escalation), otherwise
  it calls `task._cancel()` directly on itself. -/
def cancelAtRev (t : TaskTree) (c : Nat) : List Nat → TaskTree × List Event × Nat
  | [] =>
    if t.rootState = .pending then
      let r := cancelT t .none c
      (r.1, .hook t.data.hookId :: r.2.1, r.2.2)
    else (t, [], c)
  | i :: rest =>
    match nodeAt t (rest.reverse ++ [i]) with
    | some n =>
      if n.rootState = .pending then
        match nodeAt t rest.reverse with
        | some par =>
          if par.rootState = .pending then
            cancelAtRev t c rest
          else
            let r := cancelT n .none c
            (replaceAt (rest.reverse ++ [i]) t r.1, r.2.1, r.2.2)
        | none => (t, [], c)
      else (t, [], c)
    | none => (t, [], c)

/-- Set the state of a tree's root node, keeping everything else. -/
def setRootState : TaskTree → TState → TaskTree
  | .mk d cs, s => .mk { d with state := s } cs

/-- Whether the parent of the task at path `p` is settled; `true` for the
root (the executor needs no parent to resolve). -/
def psAt : Bool → TaskTree → List Nat → Bool
  | ps, _, [] => ps
  | _, .mk d cs, i :: p =>
    match forestGet cs i with
    | some c => psAt (isSettled d.state) c p
    | none => false

/-- A public operation on the task tree.
* `addChild p nd` — `then`/`finally` called on the task at path `p`
  (src lines 92-97, 99-130): a new Pending child with data `nd` is appended
  to its children;
* `settle p ok` — the base future of the task at path `p` settles
  (fulfilled if `ok`, rejected otherwise): for the root this is the
  executor calling resolve/reject; for a derived task it is the deferred
  handler firing after the parent settled;
* `cancel p` — `cancel()` called on the task at path `p`. -/
inductive Op where
  | addChild (p : List Nat) (nd : TaskData)
  | settle (p : List Nat) (ok : Bool)
  | cancel (p : List Nat)

/-- One public operation.  `addChild` embeds `then`/`finally`: the new child
starts Pending and is appended to the target's children collection
(src line 127).  `settle` is modelled from the spec for the base future
(a one-shot settle that fires only while Pending and, for a derived task,
only once the parent has settled), combined with the source's suppression
guards: the constructor wrappers (src lines 17-26) and the `then` wrappers
(src lines 102-111) both refuse to act when the task's state is Canceled.
`cancel` is `cancel()` (src lines 86-90). -/
def applyOp : Op → TaskTree → Nat → TaskTree × List Event × Nat
  | .addChild p nd, t, c =>
    match nodeAt t p with
    | some (.mk d cs) =>
      (replaceAt p t (.mk d (forestAppend cs (.mk { nd with state := .pending } .nil))), [], c)
    | none => (t, [], c)
  | .settle p ok, t, c =>
    match nodeAt t p with
    | some n =>
      if n.rootState = .canceled then (t, [], c)
      else if n.rootState = .pending && psAt true t p then
        (replaceAt p t (setRootState n (if ok then .fulfilled else .rejected)),
         [.settled n.data.tid], c)
      else (t, [], c)
    | none => (t, [], c)
  | .cancel p, t, c => cancelAtRev t c p.reverse

/-- Run a sequence of public operations, accumulating the event log. -/
def run : List Op → TaskTree → Nat → TaskTree × List Event × Nat
  | [], t, c => (t, [], c)
  | o :: os, t, c =>
    let r1 := applyOp o t c
    let r2 := run os r1.1 r1.2.2
    (r2.1, r1.2.1 ++ r2.2.1, r2.2.2)

/-! ## Observation functions used by the claim statements -/

/-- Whether an event records the invocation of a user cancel hook. -/
def isHookEv : Event → Bool
  | .hook _ => true
  | _ => false

/-- Number of user-cancel-hook invocations recorded in a log. -/
def countHook (evs : List Event) : Nat :=
  evs.countP isHookEv

/-- Whether an event records an invocation (immediate or attached) of the
`finally` callback `f`. -/
def isFinEv (f : Nat) : Event → Bool
  | .finRun g _ => g == f
  | .attach g _ _ => g == f
  | _ => false

/-- Number of invocations (immediate or attached) of the `finally` callback
`f` recorded in a log. -/
def countFinEvents (f : Nat) (evs : List Event) : Nat :=
  evs.countP (isFinEv f)

mutual
/-- Number of tasks in the tree whose registered `finally` callback is `f`. -/
def countFinNodes (f : Nat) : TaskTree → Nat
  | .mk d cs => (if d.hasFinally ∧ d.finId = f then 1 else 0) + countFinNodesF f cs
/-- `countFinNodes` on a forest. -/
def countFinNodesF (f : Nat) : TaskForest → Nat
  | .nil => 0
  | .cons t ts => countFinNodes f t + countFinNodesF f ts
end

mutual
/-- Every task in the tree is in the Canceled state. -/
def allCanceledT : TaskTree → Bool
  | .mk d cs => (d.state == .canceled) && allCanceledF cs
/-- `allCanceledT` on a forest. -/
def allCanceledF : TaskForest → Bool
  | .nil => true
  | .cons t ts => allCanceledT t && allCanceledF ts
end

mutual
/-- No task in the tree is settled (Fulfilled or Rejected). -/
def noSettledT : TaskTree → Bool
  | .mk d cs => !isSettled d.state && noSettledF cs
/-- `noSettledT` on a forest. -/
def noSettledF : TaskForest → Bool
  | .nil => true
  | .cons t ts => noSettledT t && noSettledF ts
end

mutual
/-- The reachability invariant of the chaining model: a derived task can only
be settled once its parent is settled.  The parameter is whether the parent
of the current node is settled (`true` at the root: the executor needs no
parent). -/
def invT : Bool → TaskTree → Bool
  | ps, .mk d cs => (!isSettled d.state || ps) && invF (isSettled d.state) cs
/-- `invT` on a forest of siblings whose common parent's settledness is the
parameter. -/
def invF : Bool → TaskForest → Bool
  | _, .nil => true
  | ps, .cons t ts => invT ps t && invF ps ts
end

/-- The only state changes the system makes: a task either keeps its state or
leaves Pending.  In particular Canceled, Fulfilled and Rejected are
absorbing. -/
def stateLe (s s' : TState) : Prop :=
  s' = s ∨ s = .pending

/-! ## Basic structural lemmas -/

@[simp] theorem data_mk (d : TaskData) (cs : TaskForest) : (TaskTree.mk d cs).data = d := rfl

@[simp] theorem rootState_mk (d : TaskData) (cs : TaskForest) :
    (TaskTree.mk d cs).rootState = d.state := rfl

@[simp] theorem childrenOf_mk (d : TaskData) (cs : TaskForest) :
    (TaskTree.mk d cs).childrenOf = cs := rfl

theorem cancelT_mk (d : TaskData) (cs : TaskForest) (fr : FinRes) (c : Nat) :
    cancelT (.mk d cs) fr c =
      (.mk { d with state := .canceled } (cancelF cs (finStep d fr c).1 (finStep d fr c).2.2).1,
       .setCanceled d.tid :: (finStep d fr c).2.1 ++ (cancelF cs (finStep d fr c).1 (finStep d fr c).2.2).2.1,
       (cancelF cs (finStep d fr c).1 (finStep d fr c).2.2).2.2) := by
  simp [cancelT]

@[simp] theorem cancelF_nil (fr : FinRes) (c : Nat) : cancelF .nil fr c = (.nil, [], c) := by
  simp [cancelF]

theorem cancelF_cons (t : TaskTree) (ts : TaskForest) (fr : FinRes) (c : Nat) :
    cancelF (.cons t ts) fr c =
      (.cons (cancelT t fr c).1 (cancelF ts fr (cancelT t fr c).2.2).1,
       (cancelT t fr c).2.1 ++ (cancelF ts fr (cancelT t fr c).2.2).2.1,
       (cancelF ts fr (cancelT t fr c).2.2).2.2) := by
  simp [cancelF]

@[simp] theorem nodeAt_nil (t : TaskTree) : nodeAt t [] = some t := by
  match t with
  | .mk d cs => rfl

theorem nodeAt_cons (d : TaskData) (cs : TaskForest) (i : Nat) (p : List Nat) :
    nodeAt (.mk d cs) (i :: p) =
      match forestGet cs i with
      | some c => nodeAt c p
      | none => none := rfl

theorem nodeAt_append (t : TaskTree) (p q : List Nat) :
    nodeAt t (p ++ q) = (nodeAt t p).bind (fun s => nodeAt s q) := by
  induction p generalizing t with
  | nil => simp
  | cons i p ih =>
    match t with
    | .mk d cs =>
      rw [List.cons_append, nodeAt_cons, nodeAt_cons]
      match forestGet cs i with
      | some c => exact ih c
      | none => rfl

theorem forestGet_set_self : ∀ (cs : TaskForest) (i : Nat) (c x : TaskTree),
    forestGet cs i = some c → forestGet (forestSet cs i x) i = some x
  | .nil, i, _, _, h => by simp [forestGet] at h
  | .cons _ _, 0, _, _, _ => rfl
  | .cons _ ts, i + 1, c, x, h => forestGet_set_self ts i c x h

theorem forestGet_set_ne : ∀ (cs : TaskForest) (i j : Nat) (x : TaskTree), j ≠ i →
    forestGet (forestSet cs i x) j = forestGet cs j
  | .nil, _, _, _, _ => rfl
  | .cons _ _, 0, 0, _, h => absurd rfl h
  | .cons _ _, 0, _ + 1, _, _ => rfl
  | .cons _ _, _ + 1, 0, _, _ => rfl
  | .cons _ ts, i + 1, j + 1, x, h =>
    forestGet_set_ne ts i j x (fun hh => h (congrArg Nat.succ hh))

theorem forestGet_append_of_some : ∀ (cs : TaskForest) (j : Nat) (y x : TaskTree),
    forestGet cs j = some y → forestGet (forestAppend cs x) j = some y
  | .nil, j, _, _, h => by simp [forestGet] at h
  | .cons _ _, 0, _, _, h => h
  | .cons _ ts, j + 1, y, x, h => forestGet_append_of_some ts j y x h

/-! ## Structure of a `_cancel` propagation -/

mutual
/-- `_cancel` leaves every task of the subtree it is run on Canceled. -/
theorem allCanceled_cancelT : ∀ (t : TaskTree) (fr : FinRes) (c : Nat),
    allCanceledT (cancelT t fr c).1 = true
  | .mk d cs, fr, c => by
    rw [cancelT_mk]
    simp [allCanceledT, allCanceled_cancelF cs (finStep d fr c).1 (finStep d fr c).2.2]
theorem allCanceled_cancelF : ∀ (cs : TaskForest) (fr : FinRes) (c : Nat),
    allCanceledF (cancelF cs fr c).1 = true
  | .nil, _, _ => rfl
  | .cons t ts, fr, c => by
    rw [cancelF_cons]
    simp only [allCanceledF, Bool.and_eq_true]
    exact ⟨allCanceled_cancelT t _ _, allCanceled_cancelF ts _ _⟩
end

theorem countHook_finStep (d : TaskData) (fr : FinRes) (c : Nat) :
    countHook (finStep d fr c).2.1 = 0 := by
  cases hf : d.hasFinally <;>
    cases fr <;>
      simp [finStep, hf, countHook, isHookEv, runFinallyRes]

mutual
/-- The propagation routine `_cancel` never invokes a user cancel hook. -/
theorem countHook_cancelT : ∀ (t : TaskTree) (fr : FinRes) (c : Nat),
    countHook (cancelT t fr c).2.1 = 0
  | .mk d cs, fr, c => by
    rw [cancelT_mk]
    simp only [countHook, List.countP_cons, List.countP_append]
    have h1 := countHook_finStep d fr c
    have h2 := countHook_cancelF cs (finStep d fr c).1 (finStep d fr c).2.2
    simp only [countHook] at h1 h2
    simp [isHookEv, h1, h2]
theorem countHook_cancelF : ∀ (cs : TaskForest) (fr : FinRes) (c : Nat),
    countHook (cancelF cs fr c).2.1 = 0
  | .nil, _, _ => rfl
  | .cons t ts, fr, c => by
    rw [cancelF_cons]
    simp only [countHook, List.countP_append]
    have h1 := countHook_cancelT t fr c
    have h2 := countHook_cancelF ts fr (cancelT t fr c).2.2
    simp only [countHook] at h1 h2
    simp [h1, h2]
end

/-- `_cancel` preserves the positions of the children it visits: a child slot
that was empty stays empty. -/
theorem forestGet_cancelF_none : ∀ (cs : TaskForest) (fr : FinRes) (c i : Nat),
    forestGet cs i = none → forestGet (cancelF cs fr c).1 i = none
  | .nil, _, _, _, _ => rfl
  | .cons _ _, _, _, 0, h => by simp [forestGet] at h
  | .cons t ts, fr, c, i + 1, h => by
    rw [cancelF_cons]
    exact forestGet_cancelF_none ts fr (cancelT t fr c).2.2 i h

/-- A child visited by `_cancel` is replaced by `_cancel` of that child (at
some thenable counter), with the same finallyTask for every sibling. -/
theorem forestGet_cancelF_some : ∀ (cs : TaskForest) (fr : FinRes) (c i : Nat) (ch : TaskTree),
    forestGet cs i = some ch →
    ∃ c', forestGet (cancelF cs fr c).1 i = some (cancelT ch fr c').1
  | .nil, _, _, i, _, h => by simp [forestGet] at h
  | .cons t ts, fr, c, 0, ch, h => by
    rw [cancelF_cons]
    exact ⟨c, by rw [show t = ch from Option.some.inj h]; rfl⟩
  | .cons t ts, fr, c, i + 1, ch, h => by
    rw [cancelF_cons]
    exact forestGet_cancelF_some ts fr (cancelT t fr c).2.2 i ch h

/-- Pointwise effect of `_cancel` on states: every valid path keeps being
valid and its task's state becomes Canceled; no new tasks appear. -/
theorem stateAt_cancelT : ∀ (p : List Nat) (t : TaskTree) (fr : FinRes) (c : Nat),
    stateAt (cancelT t fr c).1 p = (stateAt t p).map (fun _ => .canceled)
  | [], .mk d cs, fr, c => by rw [cancelT_mk]; simp [stateAt, TaskTree.rootState]
  | i :: p, .mk d cs, fr, c => by
    rw [cancelT_mk]
    simp only [stateAt, nodeAt_cons]
    cases hg : forestGet cs i with
    | none =>
      rw [forestGet_cancelF_none _ _ _ _ hg]
      simp
    | some ch =>
      obtain ⟨c', hc'⟩ := forestGet_cancelF_some _ _ _ _ _ hg
      rw [hc']
      exact stateAt_cancelT p ch (finStep d fr c).1 c'

/-- The events of `_cancel` on a forest contain, around each child, exactly
that child's own `_cancel` events. -/
theorem cancelF_events_decomp : ∀ (cs : TaskForest) (fr : FinRes) (c i : Nat) (ch : TaskTree),
    forestGet cs i = some ch →
    ∃ pre c' post, (cancelF cs fr c).2.1 = pre ++ (cancelT ch fr c').2.1 ++ post
  | .nil, _, _, i, _, h => by simp [forestGet] at h
  | .cons t ts, fr, c, 0, ch, h => by
    rw [cancelF_cons]
    refine ⟨[], c, (cancelF ts fr (cancelT t fr c).2.2).2.1, ?_⟩
    rw [show t = ch from Option.some.inj h]
    simp
  | .cons t ts, fr, c, i + 1, ch, h => by
    rw [cancelF_cons]
    obtain ⟨pre, c', post, he⟩ :=
      cancelF_events_decomp ts fr (cancelT t fr c).2.2 i ch h
    exact ⟨(cancelT t fr c).2.1 ++ pre, c', post, by simp [he]⟩

theorem countFin_finStep (d : TaskData) (fr : FinRes) (c f : Nat) :
    countFinEvents f (finStep d fr c).2.1 = if d.hasFinally ∧ d.finId = f then 1 else 0 := by
  cases hf : d.hasFinally <;>
    cases fr <;>
      by_cases hid : d.finId = f <;>
        simp [finStep, hf, hid, countFinEvents, isFinEv, runFinallyRes, List.countP_cons]

mutual
/-- Exact accounting of finalizer invocations during a `_cancel`: the events
mention the `finally` callback `f` exactly as often as it is registered in
the subtree — each registered finalizer is invoked (immediately or by
attachment) exactly once. -/
theorem countFin_cancelT : ∀ (t : TaskTree) (fr : FinRes) (c f : Nat),
    countFinEvents f (cancelT t fr c).2.1 = countFinNodes f t
  | .mk d cs, fr, c, f => by
    rw [cancelT_mk]
    simp only [countFinEvents, List.countP_cons, List.countP_append, countFinNodes]
    have h1 := countFin_finStep d fr c f
    have h2 := countFin_cancelF cs (finStep d fr c).1 (finStep d fr c).2.2 f
    simp only [countFinEvents] at h1 h2
    simp [isFinEv, h1, h2]
theorem countFin_cancelF : ∀ (cs : TaskForest) (fr : FinRes) (c f : Nat),
    countFinEvents f (cancelF cs fr c).2.1 = countFinNodesF f cs
  | .nil, _, _, _ => rfl
  | .cons t ts, fr, c, f => by
    rw [cancelF_cons]
    simp only [countFinEvents, List.countP_append, countFinNodesF]
    have h1 := countFin_cancelT t fr c f
    have h2 := countFin_cancelF ts fr (cancelT t fr c).2.2 f
    simp only [countFinEvents] at h1 h2
    simp [h1, h2]
end

/-- If a task has a registered finalizer, its finalizer step emits exactly
one event, and that event mentions its `finally` callback. -/
theorem finStep_single (d : TaskData) (fr : FinRes) (c : Nat) (hf : d.hasFinally = true) :
    ∃ e, (finStep d fr c).2.1 = [e] ∧ isFinEv d.finId e = true := by
  cases fr with
  | none => exact ⟨.finRun d.finId d.finThrows, by simp [finStep, hf], by simp [isFinEv]⟩
  | thenable k => exact ⟨.attach d.finId k c, by simp [finStep, hf], by simp [isFinEv]⟩

/-- During a `_cancel`, the finalizer of any task in the subtree is invoked
only after that task's own state has already been set to Canceled: the
event log decomposes around the finalizer event, with the task's
`setCanceled` strictly earlier. -/
theorem finEv_after_setCanceled : ∀ (p : List Nat) (t : TaskTree) (fr : FinRes) (c : Nat)
    (n : TaskTree), nodeAt t p = some n → n.data.hasFinally = true →
    ∃ l₁ e l₂, (cancelT t fr c).2.1 = l₁ ++ e :: l₂ ∧
      isFinEv n.data.finId e = true ∧ Event.setCanceled n.data.tid ∈ l₁
  | [], .mk d cs, fr, c, n, hn, hf => by
    rw [nodeAt_nil] at hn
    obtain rfl : TaskTree.mk d cs = n := Option.some.inj hn
    simp only [data_mk] at hf ⊢
    obtain ⟨e, he, hev⟩ := finStep_single d fr c hf
    refine ⟨[.setCanceled d.tid], e,
      (cancelF cs (finStep d fr c).1 (finStep d fr c).2.2).2.1, ?_, hev, by simp⟩
    rw [cancelT_mk, he]
    simp
  | i :: p, .mk d cs, fr, c, n, hn, hf => by
    rw [nodeAt_cons] at hn
    match hg : forestGet cs i with
    | none => rw [hg] at hn; exact absurd hn (by simp)
    | some ch =>
      rw [hg] at hn
      obtain ⟨pre, c', post, hdec⟩ :=
        cancelF_events_decomp cs (finStep d fr c).1 (finStep d fr c).2.2 i ch hg
      obtain ⟨l₁, e, l₂, heq, hev, hmem⟩ :=
        finEv_after_setCanceled p ch (finStep d fr c).1 c' n hn hf
      refine ⟨.setCanceled d.tid :: (finStep d fr c).2.1 ++ pre ++ l₁, e, l₂ ++ post,
        ?_, hev, by simp [hmem]⟩
      rw [cancelT_mk]
      simp only [hdec, heq]
      simp

/-- During a `_cancel`, finalizers run in parent-before-children order:
for a task and a strict descendant that both have registered finalizers,
the ancestor's finalizer event occurs strictly before the descendant's. -/
theorem finEv_ancestor_order : ∀ (pA : List Nat) (t : TaskTree) (fr : FinRes) (c i : Nat)
    (q : List Nat) (nA nC : TaskTree),
    nodeAt t pA = some nA → nodeAt t (pA ++ i :: q) = some nC →
    nA.data.hasFinally = true → nC.data.hasFinally = true →
    ∃ l₁ e l₂ e' l₃, (cancelT t fr c).2.1 = l₁ ++ e :: l₂ ++ e' :: l₃ ∧
      isFinEv nA.data.finId e = true ∧ isFinEv nC.data.finId e' = true
  | [], .mk d cs, fr, c, i, q, nA, nC, hA, hC, hfA, hfC => by
    rw [nodeAt_nil] at hA
    obtain rfl : TaskTree.mk d cs = nA := Option.some.inj hA
    simp only [data_mk] at hfA ⊢
    rw [List.nil_append, nodeAt_cons] at hC
    match hg : forestGet cs i with
    | none => rw [hg] at hC; exact absurd hC (by simp)
    | some ch =>
      rw [hg] at hC
      obtain ⟨e, he, hev⟩ := finStep_single d fr c hfA
      obtain ⟨pre, c', post, hdec⟩ :=
        cancelF_events_decomp cs (finStep d fr c).1 (finStep d fr c).2.2 i ch hg
      obtain ⟨l₁, e', l₂, heq, hev', _⟩ :=
        finEv_after_setCanceled q ch (finStep d fr c).1 c' nC hC hfC
      refine ⟨[.setCanceled d.tid], e, pre ++ l₁, e', l₂ ++ post, ?_, hev, hev'⟩
      rw [cancelT_mk, he]
      simp only [hdec, heq]
      simp
  | j :: pA, .mk d cs, fr, c, i, q, nA, nC, hA, hC, hfA, hfC => by
    rw [nodeAt_cons] at hA
    rw [List.cons_append, nodeAt_cons] at hC
    match hg : forestGet cs j with
    | none => rw [hg] at hA; exact absurd hA (by simp)
    | some ch =>
      rw [hg] at hA hC
      obtain ⟨pre, c', post, hdec⟩ :=
        cancelF_events_decomp cs (finStep d fr c).1 (finStep d fr c).2.2 j ch hg
      obtain ⟨l₁, e, l₂, e', l₃, heq, hev, hev'⟩ :=
        finEv_ancestor_order pA ch (finStep d fr c).1 c' i q nA nC hA hC hfA hfC
      refine ⟨.setCanceled d.tid :: (finStep d fr c).2.1 ++ pre ++ l₁, e, l₂, e', l₃ ++ post,
        ?_, hev, hev'⟩
      rw [cancelT_mk]
      simp only [hdec, heq]
      simp

/-! ## Replacing a subtree: effect on states elsewhere -/

@[simp] theorem replaceAt_nil (t new : TaskTree) : replaceAt [] t new = new := rfl

theorem replaceAt_cons_some {cs : TaskForest} {i : Nat} {c : TaskTree} (p : List Nat)
    (d : TaskData) (new : TaskTree) (hg : forestGet cs i = some c) :
    replaceAt (i :: p) (.mk d cs) new = .mk d (forestSet cs i (replaceAt p c new)) := by
  simp [replaceAt, hg]

theorem replaceAt_cons_none {cs : TaskForest} {i : Nat} (p : List Nat)
    (d : TaskData) (new : TaskTree) (hg : forestGet cs i = none) :
    replaceAt (i :: p) (.mk d cs) new = .mk d cs := by
  simp [replaceAt, hg]

/-- Replacing at a non-empty path never changes the root's own data. -/
theorem data_replaceAt_cons (i : Nat) (p : List Nat) (d : TaskData) (cs : TaskForest)
    (new : TaskTree) : (replaceAt (i :: p) (.mk d cs) new).data = d := by
  match hg : forestGet cs i with
  | none => rw [replaceAt_cons_none p d new hg]; rfl
  | some c => rw [replaceAt_cons_some p d new hg]; rfl

/-- The state at a path extending the replaced position is the state inside
the replacement. -/
theorem stateAt_replaceAt_self : ∀ (p0 : List Nat) (t sub new : TaskTree) (q : List Nat),
    nodeAt t p0 = some sub → stateAt (replaceAt p0 t new) (p0 ++ q) = stateAt new q
  | [], _, _, new, q, _ => by simp
  | i :: p0, .mk d cs, sub, new, q, h => by
    rw [nodeAt_cons] at h
    match hg : forestGet cs i with
    | none => rw [hg] at h; exact absurd h (by simp)
    | some c =>
      rw [hg] at h
      rw [replaceAt_cons_some p0 d new hg, List.cons_append]
      simp only [stateAt, nodeAt_cons, forestGet_set_self cs i c (replaceAt p0 c new) hg]
      exact stateAt_replaceAt_self p0 c sub new q h

/-- The state at a path that does not extend the replaced position is
unchanged by the replacement. -/
theorem stateAt_replaceAt_other : ∀ (p0 p : List Nat) (t new : TaskTree),
    (¬ ∃ q, p = p0 ++ q) → stateAt (replaceAt p0 t new) p = stateAt t p
  | [], p, _, _, h => absurd ⟨p, rfl⟩ h
  | i :: p0, p, .mk d cs, new, h => by
    match hg : forestGet cs i with
    | none => rw [replaceAt_cons_none p0 d new hg]
    | some c =>
      rw [replaceAt_cons_some p0 d new hg]
      match p with
      | [] => simp [stateAt]
      | j :: p' =>
        by_cases hij : j = i
        · subst hij
          have h' : ¬ ∃ q, p' = p0 ++ q := fun ⟨q, hq⟩ => h ⟨q, by simp [hq]⟩
          simp only [stateAt, nodeAt_cons,
            forestGet_set_self cs j c (replaceAt p0 c new) hg, hg]
          exact stateAt_replaceAt_other p0 p' c new h'
        · simp only [stateAt, nodeAt_cons,
            forestGet_set_ne cs i j (replaceAt p0 c new) hij]

/-! ## The reachability invariant and its preservation -/

@[simp] theorem psAt_nil (ps : Bool) (t : TaskTree) : psAt ps t [] = ps := by
  match t with
  | .mk d cs => rfl

theorem psAt_cons_some {cs : TaskForest} {i : Nat} {c : TaskTree} (ps : Bool) (d : TaskData)
    (p : List Nat) (hg : forestGet cs i = some c) :
    psAt ps (.mk d cs) (i :: p) = psAt (isSettled d.state) c p := by
  simp [psAt, hg]

theorem invT_mk (ps : Bool) (d : TaskData) (cs : TaskForest) :
    invT ps (.mk d cs) = ((!isSettled d.state || ps) && invF (isSettled d.state) cs) := by
  simp [invT]

theorem invF_cons (ps : Bool) (t : TaskTree) (ts : TaskForest) :
    invF ps (.cons t ts) = (invT ps t && invF ps ts) := by
  simp [invF]

@[simp] theorem invF_nil (ps : Bool) : invF ps .nil = true := rfl

mutual
/-- Weakening: the invariant with any parent-settledness implies the one
with a settled parent. -/
theorem invT_mono : ∀ (t : TaskTree) (b : Bool), invT b t = true → invT true t = true
  | .mk d cs, b, h => by
    rw [invT_mk] at h ⊢
    simp only [Bool.and_eq_true] at h ⊢
    exact ⟨by simp, h.2⟩
theorem invF_mono : ∀ (cs : TaskForest) (b : Bool), invF b cs = true → invF true cs = true
  | .nil, _, _ => rfl
  | .cons t ts, b, h => by
    rw [invF_cons] at h ⊢
    simp only [Bool.and_eq_true] at h ⊢
    exact ⟨invT_mono t b h.1, invF_mono ts b h.2⟩
end

mutual
/-- Under an unsettled parent the invariant forces every task to be
unsettled. -/
theorem invT_false_noSettled : ∀ (t : TaskTree), invT false t = true → noSettledT t = true
  | .mk d cs, h => by
    rw [invT_mk] at h
    simp only [Bool.and_eq_true, Bool.or_eq_true, Bool.not_eq_true'] at h
    have hs : isSettled d.state = false := by
      rcases h.1 with h1 | h1
      · exact h1
      · exact absurd h1 (by simp)
    simp only [noSettledT, Bool.and_eq_true, Bool.not_eq_true', hs, true_and]
    rw [hs] at h
    exact invF_false_noSettled cs h.2
theorem invF_false_noSettled : ∀ (cs : TaskForest), invF false cs = true → noSettledF cs = true
  | .nil, _ => rfl
  | .cons t ts, h => by
    rw [invF_cons] at h
    simp only [Bool.and_eq_true] at h
    simp only [noSettledF, Bool.and_eq_true]
    exact ⟨invT_false_noSettled t h.1, invF_false_noSettled ts h.2⟩
end

/-- A task satisfying the invariant whose root is not settled has no settled
task anywhere in its subtree. -/
theorem noSettled_of_inv : ∀ (t : TaskTree) (ps : Bool), invT ps t = true →
    isSettled t.rootState = false → noSettledT t = true
  | .mk d cs, ps, h, hs => by
    simp only [TaskTree.rootState, data_mk] at hs
    rw [invT_mk] at h
    simp only [Bool.and_eq_true, hs] at h
    simp only [noSettledT, Bool.and_eq_true, Bool.not_eq_true', hs, true_and]
    exact invF_false_noSettled cs h.2

theorem invF_get : ∀ (cs : TaskForest) (ps : Bool) (i : Nat) (c : TaskTree),
    invF ps cs = true → forestGet cs i = some c → invT ps c = true
  | .nil, _, i, _, _, hg => by simp [forestGet] at hg
  | .cons t ts, ps, 0, c, h, hg => by
    rw [invF_cons] at h
    simp only [Bool.and_eq_true] at h
    rw [show t = c from Option.some.inj hg] at h
    exact h.1
  | .cons t ts, ps, i + 1, c, h, hg => by
    rw [invF_cons] at h
    simp only [Bool.and_eq_true] at h
    exact invF_get ts ps i c h.2 hg

/-- The invariant restricted to any subtree, with the parent-settledness
computed along the path. -/
theorem inv_nodeAt : ∀ (p : List Nat) (t : TaskTree) (ps : Bool) (sub : TaskTree),
    invT ps t = true → nodeAt t p = some sub → invT (psAt ps t p) sub = true
  | [], t, ps, sub, h, hn => by
    rw [nodeAt_nil] at hn
    rw [show t = sub from Option.some.inj hn] at h ⊢
    simpa using h
  | i :: p, .mk d cs, ps, sub, h, hn => by
    rw [nodeAt_cons] at hn
    match hg : forestGet cs i with
    | none => rw [hg] at hn; exact absurd hn (by simp)
    | some c =>
      rw [hg] at hn
      rw [psAt_cons_some ps d p hg]
      rw [invT_mk] at h
      simp only [Bool.and_eq_true] at h
      exact inv_nodeAt p c (isSettled d.state) sub (invF_get cs _ i c h.2 hg) hn

theorem noSettledF_get : ∀ (cs : TaskForest) (i : Nat) (c : TaskTree),
    noSettledF cs = true → forestGet cs i = some c → noSettledT c = true
  | .nil, i, _, _, hg => by simp [forestGet] at hg
  | .cons t ts, 0, c, h, hg => by
    simp only [noSettledF, Bool.and_eq_true] at h
    rw [show t = c from Option.some.inj hg] at h
    exact h.1
  | .cons t ts, i + 1, c, h, hg => by
    simp only [noSettledF, Bool.and_eq_true] at h
    exact noSettledF_get ts i c h.2 hg

/-- In a subtree with no settled task, every valid path has an unsettled
state. -/
theorem noSettled_stateAt : ∀ (p : List Nat) (t : TaskTree) (s : TState),
    noSettledT t = true → stateAt t p = some s → isSettled s = false
  | [], .mk d cs, s, h, hs => by
    simp only [stateAt, nodeAt_nil, Option.map_some, TaskTree.rootState, data_mk] at hs
    simp only [noSettledT, Bool.and_eq_true, Bool.not_eq_true'] at h
    rw [← Option.some.inj hs]
    exact h.1
  | i :: p, .mk d cs, s, h, hs => by
    simp only [stateAt, nodeAt_cons] at hs
    match hg : forestGet cs i with
    | none => rw [hg] at hs; exact absurd hs (by simp)
    | some c =>
      rw [hg] at hs
      simp only [noSettledT, Bool.and_eq_true] at h
      exact noSettled_stateAt p c s (noSettledF_get cs i c h.2 hg) hs

mutual
/-- An all-Canceled subtree satisfies the invariant for any parent. -/
theorem allCanceled_invT : ∀ (t : TaskTree) (ps : Bool), allCanceledT t = true → invT ps t = true
  | .mk d cs, ps, h => by
    simp only [allCanceledT, Bool.and_eq_true, beq_iff_eq] at h
    rw [invT_mk]
    simp only [Bool.and_eq_true, h.1]
    exact ⟨by simp [isSettled], by simpa [isSettled, h.1] using allCanceled_invF cs false h.2⟩
theorem allCanceled_invF : ∀ (cs : TaskForest) (ps : Bool), allCanceledF cs = true → invF ps cs = true
  | .nil, _, _ => rfl
  | .cons t ts, ps, h => by
    simp only [allCanceledF, Bool.and_eq_true] at h
    rw [invF_cons]
    simp only [Bool.and_eq_true]
    exact ⟨allCanceled_invT t ps h.1, allCanceled_invF ts ps h.2⟩
end

theorem forestSet_invF : ∀ (cs : TaskForest) (ps : Bool) (i : Nat) (x : TaskTree),
    invF ps cs = true → invT ps x = true → invF ps (forestSet cs i x) = true
  | .nil, _, _, _, h, _ => h
  | .cons t ts, ps, 0, x, h, hx => by
    simp only [forestSet]
    rw [invF_cons] at h ⊢
    simp only [Bool.and_eq_true] at h ⊢
    exact ⟨hx, h.2⟩
  | .cons t ts, ps, i + 1, x, h, hx => by
    simp only [forestSet]
    rw [invF_cons] at h ⊢
    simp only [Bool.and_eq_true] at h ⊢
    exact ⟨h.1, forestSet_invF ts ps i x h.2 hx⟩

/-- Replacing a subtree preserves the invariant, provided the replacement
satisfies the invariant for the parent-settledness at that position. -/
theorem replaceAt_invT : ∀ (p0 : List Nat) (ps : Bool) (t sub new : TaskTree),
    invT ps t = true → nodeAt t p0 = some sub → invT (psAt ps t p0) new = true →
    invT ps (replaceAt p0 t new) = true
  | [], ps, t, sub, new, _, _, hnew => by simpa using hnew
  | i :: p0, ps, .mk d cs, sub, new, h, hn, hnew => by
    rw [nodeAt_cons] at hn
    match hg : forestGet cs i with
    | none => rw [hg] at hn; exact absurd hn (by simp)
    | some c =>
      rw [hg] at hn
      rw [psAt_cons_some ps d p0 hg] at hnew
      rw [replaceAt_cons_some p0 d new hg]
      rw [invT_mk] at h ⊢
      simp only [Bool.and_eq_true] at h ⊢
      refine ⟨h.1, forestSet_invF cs _ i _ h.2 ?_⟩
      exact replaceAt_invT p0 (isSettled d.state) c sub new
        (invF_get cs _ i c h.2 hg) hn hnew

/-! ## `cancel()`: unfolding, monotonicity, invariant preservation -/

theorem rootState_cancelT (t : TaskTree) (fr : FinRes) (c : Nat) :
    (cancelT t fr c).1.rootState = .canceled := by
  have h := stateAt_cancelT [] t fr c
  simp only [stateAt, nodeAt_nil, Option.map_some] at h
  exact Option.some.inj h

theorem unsettled_cases {s : TState} (h : isSettled s = false) :
    s = .pending ∨ s = .canceled := by
  cases s with
  | pending => exact Or.inl rfl
  | canceled => exact Or.inr rfl
  | fulfilled => simp [isSettled] at h
  | rejected => simp [isSettled] at h

theorem stateLe_refl (s : TState) : stateLe s s := Or.inl rfl

theorem stateLe_canceled_of_unsettled {s : TState} (h : isSettled s = false) :
    stateLe s .canceled := by
  rcases unsettled_cases h with h' | h'
  · exact Or.inr h'
  · exact Or.inl h'.symm

theorem cancelAtRev_nil_pending (t : TaskTree) (c : Nat) (h : t.rootState = .pending) :
    cancelAtRev t c [] =
      ((cancelT t .none c).1, .hook t.data.hookId :: (cancelT t .none c).2.1,
       (cancelT t .none c).2.2) := by
  simp [cancelAtRev, h]

theorem cancelAtRev_nil_not (t : TaskTree) (c : Nat) (h : ¬ t.rootState = .pending) :
    cancelAtRev t c [] = (t, [], c) := by
  simp [cancelAtRev, h]

theorem cancelAtRev_cons_none (t : TaskTree) (c i : Nat) (rest : List Nat)
    (h : nodeAt t (rest.reverse ++ [i]) = none) :
    cancelAtRev t c (i :: rest) = (t, [], c) := by
  simp [cancelAtRev, h]

theorem cancelAtRev_cons_notPending {t : TaskTree} {i : Nat} {rest : List Nat} {n : TaskTree}
    (c : Nat) (h : nodeAt t (rest.reverse ++ [i]) = some n) (hs : ¬ n.rootState = .pending) :
    cancelAtRev t c (i :: rest) = (t, [], c) := by
  simp [cancelAtRev, h, hs]

theorem cancelAtRev_cons_escalate {t : TaskTree} {i : Nat} {rest : List Nat} {n par : TaskTree}
    (c : Nat) (h : nodeAt t (rest.reverse ++ [i]) = some n) (hs : n.rootState = .pending)
    (hp : nodeAt t rest.reverse = some par) (hps : par.rootState = .pending) :
    cancelAtRev t c (i :: rest) = cancelAtRev t c rest := by
  simp [cancelAtRev, h, hs, hp, hps]

theorem cancelAtRev_cons_self {t : TaskTree} {i : Nat} {rest : List Nat} {n par : TaskTree}
    (c : Nat) (h : nodeAt t (rest.reverse ++ [i]) = some n) (hs : n.rootState = .pending)
    (hp : nodeAt t rest.reverse = some par) (hps : ¬ par.rootState = .pending) :
    cancelAtRev t c (i :: rest) =
      (replaceAt (rest.reverse ++ [i]) t (cancelT n .none c).1,
       (cancelT n .none c).2.1, (cancelT n .none c).2.2) := by
  simp [cancelAtRev, h, hs, hp, hps]

/-- State monotonicity of a single `cancel()` call (with escalation): under
the reachability invariant, every task either keeps its state or moves out
of Pending. -/
theorem cancelAtRev_mono : ∀ (rp : List Nat) (t : TaskTree) (c : Nat) (p : List Nat) (s : TState),
    invT true t = true → stateAt t p = some s →
    ∃ s', stateAt (cancelAtRev t c rp).1 p = some s' ∧ stateLe s s'
  | [], t, c, p, s, hinv, hst => by
    by_cases hr : t.rootState = .pending
    · rw [cancelAtRev_nil_pending t c hr]
      refine ⟨.canceled, ?_, ?_⟩
      · rw [stateAt_cancelT p t .none c, hst]; rfl
      · have hns := noSettled_of_inv t true hinv (by rw [hr]; rfl)
        exact stateLe_canceled_of_unsettled (noSettled_stateAt p t s hns hst)
    · rw [cancelAtRev_nil_not t c hr]
      exact ⟨s, hst, stateLe_refl s⟩
  | i :: rest, t, c, p, s, hinv, hst => by
    match hn : nodeAt t (rest.reverse ++ [i]) with
    | none =>
      rw [cancelAtRev_cons_none t c i rest hn]
      exact ⟨s, hst, stateLe_refl s⟩
    | some n =>
      by_cases hs : n.rootState = .pending
      · match hp : nodeAt t rest.reverse with
        | none =>
          simp [cancelAtRev, hn, hs, hp]
          exact ⟨s, hst, stateLe_refl s⟩
        | some par =>
          by_cases hps : par.rootState = .pending
          · rw [cancelAtRev_cons_escalate c hn hs hp hps]
            exact cancelAtRev_mono rest t c p s hinv hst
          · rw [cancelAtRev_cons_self c hn hs hp hps]
            by_cases hpre : ∃ q, p = (rest.reverse ++ [i]) ++ q
            · obtain ⟨q, rfl⟩ := hpre
              have hsub : stateAt n q = some s := by
                rw [stateAt, nodeAt_append, hn] at hst
                exact hst
              refine ⟨.canceled, ?_, ?_⟩
              · rw [stateAt_replaceAt_self (rest.reverse ++ [i]) t n (cancelT n .none c).1 q hn,
                  stateAt_cancelT q n .none c, hsub]
                rfl
              · have hinvn := inv_nodeAt (rest.reverse ++ [i]) t true n hinv hn
                have hns := noSettled_of_inv n _ hinvn (by rw [hs]; rfl)
                exact stateLe_canceled_of_unsettled (noSettled_stateAt q n s hns hsub)
            · rw [stateAt_replaceAt_other (rest.reverse ++ [i]) p t (cancelT n .none c).1 hpre]
              exact ⟨s, hst, stateLe_refl s⟩
      · rw [cancelAtRev_cons_notPending c hn hs]
        exact ⟨s, hst, stateLe_refl s⟩

/-- A single `cancel()` call preserves the reachability invariant. -/
theorem cancelAtRev_inv : ∀ (rp : List Nat) (t : TaskTree) (c : Nat),
    invT true t = true → invT true (cancelAtRev t c rp).1 = true
  | [], t, c, hinv => by
    by_cases hr : t.rootState = .pending
    · rw [cancelAtRev_nil_pending t c hr]
      exact allCanceled_invT _ true (allCanceled_cancelT t .none c)
    · rw [cancelAtRev_nil_not t c hr]
      exact hinv
  | i :: rest, t, c, hinv => by
    match hn : nodeAt t (rest.reverse ++ [i]) with
    | none => rw [cancelAtRev_cons_none t c i rest hn]; exact hinv
    | some n =>
      by_cases hs : n.rootState = .pending
      · match hp : nodeAt t rest.reverse with
        | none => simp [cancelAtRev, hn, hs, hp]; exact hinv
        | some par =>
          by_cases hps : par.rootState = .pending
          · rw [cancelAtRev_cons_escalate c hn hs hp hps]
            exact cancelAtRev_inv rest t c hinv
          · rw [cancelAtRev_cons_self c hn hs hp hps]
            exact replaceAt_invT (rest.reverse ++ [i]) true t n (cancelT n .none c).1 hinv hn
              (allCanceled_invT _ _ (allCanceled_cancelT n .none c))
      · rw [cancelAtRev_cons_notPending c hn hs]
        exact hinv

theorem data_replaceAt_ne_nil : ∀ (p0 : List Nat) (t new : TaskTree), p0 ≠ [] →
    (replaceAt p0 t new).data = t.data
  | [], _, _, h => absurd rfl h
  | i :: p, .mk d cs, new, _ => by rw [data_replaceAt_cons i p d cs new]; rfl

/-- A `cancel()` call invokes at most one user cancel hook, and if it does,
the canceled task's root ends up Canceled. -/
theorem cancelAtRev_hook : ∀ (rp : List Nat) (t : TaskTree) (c : Nat),
    countHook (cancelAtRev t c rp).2.1 ≤ 1 ∧
      (countHook (cancelAtRev t c rp).2.1 = 1 → (cancelAtRev t c rp).1.rootState = .canceled)
  | [], t, c => by
    by_cases hr : t.rootState = .pending
    · rw [cancelAtRev_nil_pending t c hr]
      have h := countHook_cancelT t .none c
      simp only [countHook] at h
      simp [countHook, List.countP_cons, isHookEv, h, rootState_cancelT]
    · rw [cancelAtRev_nil_not t c hr]
      simp [countHook]
  | i :: rest, t, c => by
    match hn : nodeAt t (rest.reverse ++ [i]) with
    | none => rw [cancelAtRev_cons_none t c i rest hn]; simp [countHook]
    | some n =>
      by_cases hs : n.rootState = .pending
      · match hp : nodeAt t rest.reverse with
        | none => simp [cancelAtRev, hn, hs, hp, countHook]
        | some par =>
          by_cases hps : par.rootState = .pending
          · rw [cancelAtRev_cons_escalate c hn hs hp hps]
            exact cancelAtRev_hook rest t c
          · rw [cancelAtRev_cons_self c hn hs hp hps]
            have h := countHook_cancelT n .none c
            simp only [countHook] at h
            simp [countHook, h]
      · rw [cancelAtRev_cons_notPending c hn hs]
        simp [countHook]

/-- On a task whose root is not Pending, a `cancel()` call never invokes a
hook and never changes the root's state. -/
theorem cancelAtRev_root_frozen : ∀ (rp : List Nat) (t : TaskTree) (c : Nat),
    ¬ t.rootState = .pending →
    countHook (cancelAtRev t c rp).2.1 = 0 ∧ (cancelAtRev t c rp).1.rootState = t.rootState
  | [], t, c, hr => by rw [cancelAtRev_nil_not t c hr]; simp [countHook]
  | i :: rest, t, c, hr => by
    match hn : nodeAt t (rest.reverse ++ [i]) with
    | none => rw [cancelAtRev_cons_none t c i rest hn]; simp [countHook]
    | some n =>
      by_cases hs : n.rootState = .pending
      · match hp : nodeAt t rest.reverse with
        | none => simp [cancelAtRev, hn, hs, hp, countHook]
        | some par =>
          by_cases hps : par.rootState = .pending
          · rw [cancelAtRev_cons_escalate c hn hs hp hps]
            exact cancelAtRev_root_frozen rest t c hr
          · rw [cancelAtRev_cons_self c hn hs hp hps]
            have h := countHook_cancelT n .none c
            simp only [countHook] at h
            refine ⟨h, ?_⟩
            simp only [TaskTree.rootState]
            rw [data_replaceAt_ne_nil (rest.reverse ++ [i]) t (cancelT n .none c).1 (by simp)]
      · rw [cancelAtRev_cons_notPending c hn hs]
        simp [countHook]

/-! ## Single public operations: unfolding, monotonicity, invariant -/

theorem applyOp_cancel (p : List Nat) (t : TaskTree) (c : Nat) :
    applyOp (.cancel p) t c = cancelAtRev t c p.reverse := rfl

theorem applyOp_addChild_some {t : TaskTree} {p : List Nat} {d : TaskData} {cs : TaskForest}
    (nd : TaskData) (c : Nat) (h : nodeAt t p = some (.mk d cs)) :
    applyOp (.addChild p nd) t c =
      (replaceAt p t (.mk d (forestAppend cs (.mk { nd with state := .pending } .nil))),
       [], c) := by
  simp [applyOp, h]

theorem applyOp_addChild_none {t : TaskTree} {p : List Nat} (nd : TaskData) (c : Nat)
    (h : nodeAt t p = none) : applyOp (.addChild p nd) t c = (t, [], c) := by
  simp [applyOp, h]

theorem applyOp_settle_none {t : TaskTree} {p : List Nat} (ok : Bool) (c : Nat)
    (h : nodeAt t p = none) : applyOp (.settle p ok) t c = (t, [], c) := by
  simp [applyOp, h]

theorem applyOp_settle_canceled {t : TaskTree} {p : List Nat} {n : TaskTree} (ok : Bool) (c : Nat)
    (h : nodeAt t p = some n) (hc : n.rootState = .canceled) :
    applyOp (.settle p ok) t c = (t, [], c) := by
  simp [applyOp, h, hc]

theorem applyOp_settle_go {t : TaskTree} {p : List Nat} {n : TaskTree} (ok : Bool) (c : Nat)
    (h : nodeAt t p = some n) (_hc : ¬ n.rootState = .canceled) (hpend : n.rootState = .pending)
    (hps : psAt true t p = true) :
    applyOp (.settle p ok) t c =
      (replaceAt p t (setRootState n (if ok then .fulfilled else .rejected)),
       [.settled n.data.tid], c) := by
  have hc : ¬ n.rootState = .canceled := by rw [hpend]; simp
  simp [applyOp, h, hc, hpend, hps]

theorem applyOp_settle_stuck {t : TaskTree} {p : List Nat} {n : TaskTree} (ok : Bool) (c : Nat)
    (h : nodeAt t p = some n) (hc : ¬ n.rootState = .canceled)
    (hng : ¬ (n.rootState = .pending ∧ psAt true t p = true)) :
    applyOp (.settle p ok) t c = (t, [], c) := by
  by_cases hpend : n.rootState = .pending
  · have hps : psAt true t p = false := by
      cases hq : psAt true t p
      · rfl
      · exact absurd ⟨hpend, hq⟩ hng
    simp [applyOp, h, hc, hpend, hps]
  · simp [applyOp, h, hc, hpend]

theorem stateAt_setRootState_nil (n : TaskTree) (st : TState) :
    stateAt (setRootState n st) [] = some st := by
  match n with
  | .mk d cs => simp [setRootState, stateAt, TaskTree.rootState]

theorem stateAt_setRootState_cons (n : TaskTree) (st : TState) (j : Nat) (q : List Nat) :
    stateAt (setRootState n st) (j :: q) = stateAt n (j :: q) := by
  match n with
  | .mk d cs => simp [setRootState, stateAt, nodeAt_cons]

theorem invF_append : ∀ (cs : TaskForest) (ps : Bool) (x : TaskTree),
    invF ps cs = true → invT ps x = true → invF ps (forestAppend cs x) = true
  | .nil, ps, x, _, hx => by
    simp only [forestAppend]
    rw [invF_cons]
    simp [hx]
  | .cons t ts, ps, x, h, hx => by
    simp only [forestAppend]
    rw [invF_cons] at h ⊢
    simp only [Bool.and_eq_true] at h ⊢
    exact ⟨h.1, invF_append ts ps x h.2 hx⟩

theorem stateAt_appendChild (d : TaskData) (cs : TaskForest) (leaf : TaskTree) (r : List Nat)
    (s : TState) (h : stateAt (.mk d cs) r = some s) :
    stateAt (.mk d (forestAppend cs leaf)) r = some s := by
  match r with
  | [] => simpa [stateAt] using h
  | j :: r' =>
    simp only [stateAt, nodeAt_cons] at h ⊢
    match hg : forestGet cs j with
    | none => rw [hg] at h; exact absurd h (by simp)
    | some y =>
      rw [hg] at h
      rw [forestGet_append_of_some cs j y leaf hg]
      exact h

/-- Every public operation preserves the reachability invariant. -/
theorem applyOp_inv : ∀ (o : Op) (t : TaskTree) (c : Nat),
    invT true t = true → invT true (applyOp o t c).1 = true
  | .addChild p nd, t, c, hinv => by
    match hn : nodeAt t p with
    | none => rw [applyOp_addChild_none nd c hn]; exact hinv
    | some m =>
      match m with
      | .mk d cs =>
        rw [applyOp_addChild_some nd c hn]
        refine replaceAt_invT p true t (.mk d cs) _ hinv hn ?_
        have hsub := inv_nodeAt p t true (.mk d cs) hinv hn
        rw [invT_mk] at hsub ⊢
        simp only [Bool.and_eq_true] at hsub ⊢
        refine ⟨hsub.1, invF_append cs _ _ hsub.2 ?_⟩
        simp [invT_mk, isSettled]
  | .settle p ok, t, c, hinv => by
    match hn : nodeAt t p with
    | none => rw [applyOp_settle_none ok c hn]; exact hinv
    | some n =>
      by_cases hc : n.rootState = .canceled
      · rw [applyOp_settle_canceled ok c hn hc]; exact hinv
      by_cases hg : n.rootState = .pending ∧ psAt true t p = true
      · rw [applyOp_settle_go ok c hn hc hg.1 hg.2]
        refine replaceAt_invT p true t n _ hinv hn ?_
        have hsub := inv_nodeAt p t true n hinv hn
        rw [hg.2] at hsub ⊢
        match n with
        | .mk nd ncs =>
          simp only [setRootState]
          rw [invT_mk] at hsub ⊢
          simp only [Bool.and_eq_true] at hsub ⊢
          have hnp : nd.state = .pending := hg.1
          rw [hnp] at hsub
          have hfu : invF true ncs = true := invF_mono ncs _ hsub.2
          constructor
          · simp
          · have : isSettled (if ok then TState.fulfilled else TState.rejected) = true := by
              cases ok <;> rfl
            rw [this]
            exact hfu
      · rw [applyOp_settle_stuck ok c hn hc hg]; exact hinv
  | .cancel p, t, c, hinv => by
    rw [applyOp_cancel]
    exact cancelAtRev_inv p.reverse t c hinv

/-- Every public operation is state-monotone at every existing task: a task
keeps its state or moves out of Pending. -/
theorem applyOp_mono : ∀ (o : Op) (t : TaskTree) (c : Nat) (p : List Nat) (s : TState),
    invT true t = true → stateAt t p = some s →
    ∃ s', stateAt (applyOp o t c).1 p = some s' ∧ stateLe s s'
  | .addChild q nd, t, c, p, s, hinv, hst => by
    match hn : nodeAt t q with
    | none => rw [applyOp_addChild_none nd c hn]; exact ⟨s, hst, stateLe_refl s⟩
    | some m =>
      match m with
      | .mk d cs =>
        rw [applyOp_addChild_some nd c hn]
        by_cases hpre : ∃ r, p = q ++ r
        · obtain ⟨r, rfl⟩ := hpre
          have hsub : stateAt (TaskTree.mk d cs) r = some s := by
            rw [stateAt, nodeAt_append, hn] at hst
            exact hst
          refine ⟨s, ?_, stateLe_refl s⟩
          rw [stateAt_replaceAt_self q t (.mk d cs) _ r hn]
          exact stateAt_appendChild d cs _ r s hsub
        · rw [stateAt_replaceAt_other q p t _ hpre]
          exact ⟨s, hst, stateLe_refl s⟩
  | .settle q ok, t, c, p, s, hinv, hst => by
    match hn : nodeAt t q with
    | none => rw [applyOp_settle_none ok c hn]; exact ⟨s, hst, stateLe_refl s⟩
    | some n =>
      by_cases hc : n.rootState = .canceled
      · rw [applyOp_settle_canceled ok c hn hc]; exact ⟨s, hst, stateLe_refl s⟩
      by_cases hg : n.rootState = .pending ∧ psAt true t q = true
      · rw [applyOp_settle_go ok c hn hc hg.1 hg.2]
        by_cases hpre : ∃ r, p = q ++ r
        · obtain ⟨r, rfl⟩ := hpre
          have hsub : stateAt n r = some s := by
            rw [stateAt, nodeAt_append, hn] at hst
            exact hst
          rw [stateAt_replaceAt_self q t n _ r hn]
          match r with
          | [] =>
            have hsp : s = .pending := by
              simp only [stateAt, nodeAt_nil, Option.map_some] at hsub
              rw [← Option.some.inj hsub]
              exact hg.1
            exact ⟨if ok then .fulfilled else .rejected,
              stateAt_setRootState_nil n _, Or.inr hsp⟩
          | j :: r' =>
            rw [stateAt_setRootState_cons n _ j r']
            exact ⟨s, hsub, stateLe_refl s⟩
        · rw [stateAt_replaceAt_other q p t _ hpre]
          exact ⟨s, hst, stateLe_refl s⟩
      · rw [applyOp_settle_stuck ok c hn hc hg]; exact ⟨s, hst, stateLe_refl s⟩
  | .cancel q, t, c, p, s, hinv, hst => by
    rw [applyOp_cancel]
    exact cancelAtRev_mono q.reverse t c p s hinv hst

theorem applyOp_hook_le : ∀ (o : Op) (t : TaskTree) (c : Nat),
    countHook (applyOp o t c).2.1 ≤ 1 ∧
      (countHook (applyOp o t c).2.1 = 1 → (applyOp o t c).1.rootState = .canceled)
  | .addChild p nd, t, c => by
    match hn : nodeAt t p with
    | none => rw [applyOp_addChild_none nd c hn]; simp [countHook]
    | some m =>
      match m with
      | .mk d cs => rw [applyOp_addChild_some nd c hn]; simp [countHook]
  | .settle p ok, t, c => by
    match hn : nodeAt t p with
    | none => rw [applyOp_settle_none ok c hn]; simp [countHook]
    | some n =>
      by_cases hc : n.rootState = .canceled
      · rw [applyOp_settle_canceled ok c hn hc]; simp [countHook]
      by_cases hg : n.rootState = .pending ∧ psAt true t p = true
      · rw [applyOp_settle_go ok c hn hc hg.1 hg.2]
        simp [countHook, isHookEv]
      · rw [applyOp_settle_stuck ok c hn hc hg]; simp [countHook]
  | .cancel p, t, c => by
    rw [applyOp_cancel]
    exact cancelAtRev_hook p.reverse t c

theorem applyOp_root_canceled : ∀ (o : Op) (t : TaskTree) (c : Nat),
    t.rootState = .canceled →
    (applyOp o t c).1.rootState = .canceled ∧ countHook (applyOp o t c).2.1 = 0
  | .addChild p nd, t, c, hr => by
    match hn : nodeAt t p with
    | none => rw [applyOp_addChild_none nd c hn]; exact ⟨hr, by simp [countHook]⟩
    | some m =>
      match m with
      | .mk d cs =>
        rw [applyOp_addChild_some nd c hn]
        refine ⟨?_, by simp [countHook]⟩
        match p with
        | [] =>
          rw [nodeAt_nil] at hn
          obtain rfl : t = TaskTree.mk d cs := Option.some.inj hn
          simpa [TaskTree.rootState] using hr
        | i :: p' =>
          simp only [TaskTree.rootState]
          rw [data_replaceAt_ne_nil (i :: p') t _ (by simp)]
          exact hr
  | .settle p ok, t, c, hr => by
    match hn : nodeAt t p with
    | none => rw [applyOp_settle_none ok c hn]; exact ⟨hr, by simp [countHook]⟩
    | some n =>
      by_cases hc : n.rootState = .canceled
      · rw [applyOp_settle_canceled ok c hn hc]; exact ⟨hr, by simp [countHook]⟩
      by_cases hg : n.rootState = .pending ∧ psAt true t p = true
      · rw [applyOp_settle_go ok c hn hc hg.1 hg.2]
        refine ⟨?_, by simp [countHook, isHookEv]⟩
        match p with
        | [] =>
          rw [nodeAt_nil] at hn
          rw [show t = n from Option.some.inj hn] at hr
          exact absurd hr hc
        | i :: p' =>
          simp only [TaskTree.rootState]
          rw [data_replaceAt_ne_nil (i :: p') t _ (by simp)]
          exact hr
      · rw [applyOp_settle_stuck ok c hn hc hg]; exact ⟨hr, by simp [countHook]⟩
  | .cancel p, t, c, hr => by
    rw [applyOp_cancel]
    have h := cancelAtRev_root_frozen p.reverse t c (by rw [hr]; simp)
    exact ⟨by rw [h.2, hr], h.1⟩

/-! ## Sequences of public operations -/

theorem run_nil (t : TaskTree) (c : Nat) : run [] t c = (t, [], c) := rfl

theorem run_cons (o : Op) (os : List Op) (t : TaskTree) (c : Nat) :
    run (o :: os) t c =
      ((run os (applyOp o t c).1 (applyOp o t c).2.2).1,
       (applyOp o t c).2.1 ++ (run os (applyOp o t c).1 (applyOp o t c).2.2).2.1,
       (run os (applyOp o t c).1 (applyOp o t c).2.2).2.2) := by
  simp [run]

theorem run_inv : ∀ (ops : List Op) (t : TaskTree) (c : Nat),
    invT true t = true → invT true (run ops t c).1 = true
  | [], t, c, hinv => hinv
  | o :: os, t, c, hinv => by
    rw [run_cons]
    exact run_inv os _ _ (applyOp_inv o t c hinv)

theorem stateLe_trans {s s' s'' : TState} (h1 : stateLe s s') (h2 : stateLe s' s'') :
    stateLe s s'' := by
  rcases h1 with h1 | h1
  · rw [h1] at h2
    exact h2
  · exact Or.inr h1

theorem run_mono : ∀ (ops : List Op) (t : TaskTree) (c : Nat) (p : List Nat) (s : TState),
    invT true t = true → stateAt t p = some s →
    ∃ s', stateAt (run ops t c).1 p = some s' ∧ stateLe s s'
  | [], t, c, p, s, _, hst => ⟨s, hst, stateLe_refl s⟩
  | o :: os, t, c, p, s, hinv, hst => by
    rw [run_cons]
    obtain ⟨s₁, hs₁, hle₁⟩ := applyOp_mono o t c p s hinv hst
    obtain ⟨s₂, hs₂, hle₂⟩ :=
      run_mono os (applyOp o t c).1 (applyOp o t c).2.2 p s₁ (applyOp_inv o t c hinv) hs₁
    exact ⟨s₂, hs₂, stateLe_trans hle₁ hle₂⟩

theorem run_append : ∀ (ops1 ops2 : List Op) (t : TaskTree) (c : Nat),
    (run (ops1 ++ ops2) t c).1 = (run ops2 (run ops1 t c).1 (run ops1 t c).2.2).1 ∧
    (run (ops1 ++ ops2) t c).2.2 = (run ops2 (run ops1 t c).1 (run ops1 t c).2.2).2.2
  | [], ops2, t, c => ⟨rfl, rfl⟩
  | o :: os, ops2, t, c => by
    rw [List.cons_append, run_cons, run_cons]
    exact run_append os ops2 (applyOp o t c).1 (applyOp o t c).2.2

/-- Over any sequence of public operations, at most one user cancel hook
invocation occurs; none at all if the root is already Canceled. -/
theorem run_hook : ∀ (ops : List Op) (t : TaskTree) (c : Nat),
    countHook (run ops t c).2.1 ≤ 1 ∧
      (t.rootState = .canceled → countHook (run ops t c).2.1 = 0)
  | [], t, c => by simp [run_nil, countHook]
  | o :: os, t, c => by
    rw [run_cons]
    simp only [countHook, List.countP_append]
    have hstep := applyOp_hook_le o t c
    have hrest := run_hook os (applyOp o t c).1 (applyOp o t c).2.2
    simp only [countHook] at hstep hrest
    constructor
    · by_cases h1 : List.countP isHookEv (applyOp o t c).2.1 = 1
      · rw [h1, hrest.2 (hstep.2 h1)]
      · have h0 : List.countP isHookEv (applyOp o t c).2.1 = 0 := by omega
        rw [h0]
        simpa using hrest.1
    · intro hr
      have hroot := applyOp_root_canceled o t c hr
      simp only [countHook] at hroot
      rw [hroot.2, hrest.2 hroot.1]

/-! ## The `then` handler wrappers (src lines 99-112) -/

/-- Outcome of invoking one of the wrapper functions that `then` passes to
`super.then`.
* `result v` — the wrapper returned normally (`none` is `undefined`);
* `raises e` — the invocation ended with error `e` propagating out;
* `typeError` — the wrapper itself raised a TypeError by calling a value
  that is not a function. -/
inductive HandlerOutcome (α : Type) where
  | result (v : Option α)
  | raises (e : α)
  | typeError
deriving DecidableEq

/-- The onFulfilled wrapper built by `Task.then` (src lines 102-106):
`value => { if (task._state !== Canceled) { return onFulfilled(value); } }`.
If the child task's state is Canceled the handler is skipped and the wrapper
returns `undefined`.  Otherwise the wrapper calls `onFulfilled(value)`
unconditionally; when `onFulfilled` was omitted (`undefined`), that call
raises a TypeError by JavaScript call semantics. -/
def thenWrapOnFulfilled (α : Type) (onFulfilled : Option (α → α)) (childState : TState)
    (value : α) : HandlerOutcome α :=
  if childState = .canceled then .result none
  else
    match onFulfilled with
    | some f => .result (some (f value))
    | none => .typeError

/-- The onRejected wrapper built by `Task.then` (src lines 107-111), with the
same structure as the onFulfilled wrapper. -/
def thenWrapOnRejected (α : Type) (onRejected : Option (α → α)) (childState : TState)
    (error : α) : HandlerOutcome α :=
  if childState = .canceled then .result none
  else
    match onRejected with
    | some f => .result (some (f error))
    | none => .typeError

/-- Modelled from the spec: standard deferred-value chaining semantics for an
omitted onFulfilled handler — the fulfillment value passes through to the
child unchanged, and no error is raised by the machinery itself. -/
def specOmittedOnFulfilled (α : Type) (value : α) : HandlerOutcome α :=
  .result (some value)

/-- Modelled from the spec: standard deferred-value chaining semantics for an
omitted onRejected handler — the rejection error propagates to the child
unchanged, and no new error is raised by the machinery itself. -/
def specOmittedOnRejected (α : Type) (error : α) : HandlerOutcome α :=
  .raises error

/-! ## Helper for claim C3 -/

theorem cancelAtRev_noop : ∀ (rp : List Nat) (t : TaskTree) (c : Nat) (n : TaskTree),
    nodeAt t rp.reverse = some n → ¬ n.rootState = .pending →
    cancelAtRev t c rp = (t, [], c)
  | [], t, c, n, hn, hs => by
    rw [List.reverse_nil, nodeAt_nil] at hn
    obtain rfl : t = n := Option.some.inj hn
    exact cancelAtRev_nil_not t c hs
  | i :: rest, t, c, n, hn, hs => by
    rw [List.reverse_cons] at hn
    exact cancelAtRev_cons_notPending c hn hs

/-! ## The claims -/

/-- C1: for a child created by `parent.then(...)`, calling `child.cancel()`
while both child and parent are Pending cancels the parent instead — the
cancellation runs the parent's canceler (its hook followed by the parent's
`_cancel` propagation), and afterwards both the parent and the child are
Canceled, so the child is never left Canceled under a still-Pending
parent. -/
theorem claim_C1 (d : TaskData) (cs : TaskForest) (c i : Nat) (ch : TaskTree)
    (hp : d.state = .pending) (hch : forestGet cs i = some ch)
    (hchp : ch.rootState = .pending) :
    (applyOp (.cancel [i]) (.mk d cs) c).1.rootState = .canceled ∧
    stateAt (applyOp (.cancel [i]) (.mk d cs) c).1 [i] = some .canceled ∧
    (applyOp (.cancel [i]) (.mk d cs) c).2.1 =
      .hook d.hookId :: (cancelT (.mk d cs) .none c).2.1 ∧
    ¬ (stateAt (applyOp (.cancel [i]) (.mk d cs) c).1 [i] = some .canceled ∧
       (applyOp (.cancel [i]) (.mk d cs) c).1.rootState = .pending) := by
  have hn : nodeAt (TaskTree.mk d cs) (([] : List Nat).reverse ++ [i]) = some ch := by
    rw [List.reverse_nil, List.nil_append, nodeAt_cons, hch]
    exact nodeAt_nil ch
  have hpar : nodeAt (TaskTree.mk d cs) ([] : List Nat).reverse = some (.mk d cs) := by
    rw [List.reverse_nil]
    exact nodeAt_nil _
  have hroot : (TaskTree.mk d cs).rootState = .pending := hp
  have hres : applyOp (.cancel [i]) (.mk d cs) c =
      ((cancelT (.mk d cs) .none c).1,
       .hook (TaskTree.mk d cs).data.hookId :: (cancelT (.mk d cs) .none c).2.1,
       (cancelT (.mk d cs) .none c).2.2) := by
    rw [applyOp_cancel, show ([i] : List Nat).reverse = [i] from rfl,
      cancelAtRev_cons_escalate c hn hchp hpar hroot,
      cancelAtRev_nil_pending _ c hroot]
  rw [hres]
  have hchState : stateAt (cancelT (.mk d cs) .none c).1 [i] = some .canceled := by
    rw [stateAt_cancelT [i] (.mk d cs) .none c]
    simp [stateAt, nodeAt_cons, hch]
  refine ⟨rootState_cancelT _ _ _, hchState, rfl, ?_⟩
  intro hcontra
  rw [rootState_cancelT _ _ _] at hcontra
  exact absurd hcontra.2 (by simp)

/-- C3: `cancel()` on a non-Pending Task (Fulfilled, Rejected or Canceled)
is a no-op: the tree is unchanged, no event at all occurs (no hook, no
finalizer, no state change), and in particular no propagation to children
happens. -/
theorem claim_C3 (t : TaskTree) (c : Nat) (p : List Nat) (n : TaskTree)
    (hn : nodeAt t p = some n) (hs : ¬ n.rootState = .pending) :
    applyOp (.cancel p) t c = (t, [], c) := by
  rw [applyOp_cancel]
  exact cancelAtRev_noop p.reverse t c n (by rwa [List.reverse_reverse]) hs

/-- C4: canceling a Pending child of an already-Fulfilled parent cancels the
child's own subtree only, via the child's direct `_cancel`: the parent keeps
its Fulfilled state and all of its data, the siblings are untouched, every
task in the child's subtree becomes Canceled, and no cancel hook runs. -/
theorem claim_C4 (d : TaskData) (cs : TaskForest) (c i : Nat) (ch : TaskTree)
    (hf : d.state = .fulfilled) (hch : forestGet cs i = some ch)
    (hchp : ch.rootState = .pending) :
    applyOp (.cancel [i]) (.mk d cs) c =
      (.mk d (forestSet cs i (cancelT ch .none c).1),
       (cancelT ch .none c).2.1, (cancelT ch .none c).2.2) ∧
    (applyOp (.cancel [i]) (.mk d cs) c).1.rootState = .fulfilled ∧
    (applyOp (.cancel [i]) (.mk d cs) c).1.data = d ∧
    (∀ j, j ≠ i →
      forestGet (applyOp (.cancel [i]) (.mk d cs) c).1.childrenOf j = forestGet cs j) ∧
    (∀ q s, stateAt ch q = some s →
      stateAt (applyOp (.cancel [i]) (.mk d cs) c).1 (i :: q) = some .canceled) ∧
    countHook (applyOp (.cancel [i]) (.mk d cs) c).2.1 = 0 := by
  have hn : nodeAt (TaskTree.mk d cs) (([] : List Nat).reverse ++ [i]) = some ch := by
    rw [List.reverse_nil, List.nil_append, nodeAt_cons, hch]
    exact nodeAt_nil ch
  have hpar : nodeAt (TaskTree.mk d cs) ([] : List Nat).reverse = some (.mk d cs) := by
    rw [List.reverse_nil]
    exact nodeAt_nil _
  have hroot : ¬ (TaskTree.mk d cs).rootState = .pending := by
    rw [rootState_mk, hf]
    simp
  have hres : applyOp (.cancel [i]) (.mk d cs) c =
      (.mk d (forestSet cs i (cancelT ch .none c).1),
       (cancelT ch .none c).2.1, (cancelT ch .none c).2.2) := by
    rw [applyOp_cancel, show ([i] : List Nat).reverse = [i] from rfl,
      cancelAtRev_cons_self c hn hchp hpar hroot]
    rw [List.reverse_nil, List.nil_append,
      replaceAt_cons_some [] d (cancelT ch .none c).1 hch, replaceAt_nil]
  refine ⟨hres, ?_, ?_, ?_, ?_, ?_⟩
  · rw [hres, rootState_mk, hf]
  · rw [hres, data_mk]
  · intro j hj
    rw [hres, childrenOf_mk]
    exact forestGet_set_ne cs i j _ hj
  · intro q s hq
    rw [hres]
    simp only [stateAt, nodeAt_cons, forestGet_set_self cs i ch (cancelT ch .none c).1 hch]
    have hmap := stateAt_cancelT q ch .none c
    simp only [stateAt] at hmap
    have hq' : Option.map TaskTree.rootState (nodeAt ch q) = some s := hq
    rw [hmap, hq']
    rfl
  · rw [hres]
    exact countHook_cancelT ch .none c

/-- C2: canceling a Pending Task runs its hook and then the propagation,
during which (1) every registered `finally` callback in the subtree is
invoked exactly once (here: the one registered `f`), (2) the invocation of a
task's finalizer comes strictly after that task's state was set to Canceled,
(3) a finalizer receiving a pending thenable as incoming finally-result is
attached to run only after that thenable settles, the chained thenable being
what the children receive, and (4) finalizers across the canceled subtree
fire in parent-before-descendant order. -/
theorem claim_C2 (t : TaskTree) (c f τ : Nat) (p : List Nat) (n : TaskTree)
    (hroot : t.rootState = .pending)
    (hn : nodeAt t p = some n)
    (hf : n.data.hasFinally = true)
    (hfid : n.data.finId = f)
    (htid : n.data.tid = τ)
    (hcount : countFinNodes f t = 1) :
    (applyOp (.cancel []) t c).2.1 = .hook t.data.hookId :: (cancelT t .none c).2.1 ∧
    countFinEvents f (applyOp (.cancel []) t c).2.1 = 1 ∧
    (∃ l₁ e l₂, (cancelT t .none c).2.1 = l₁ ++ e :: l₂ ∧ isFinEv f e = true ∧
      Event.setCanceled τ ∈ l₁) ∧
    (∀ (d : TaskData) (cs : TaskForest) (k c' : Nat), d.hasFinally = true →
      (cancelT (.mk d cs) (.thenable k) c').2.1 =
        .setCanceled d.tid :: .attach d.finId k c' ::
          (cancelF cs (.thenable c') (c' + 1)).2.1) ∧
    (∀ (pA : List Nat) (i : Nat) (q : List Nat) (nA nC : TaskTree),
      nodeAt t pA = some nA → nodeAt t (pA ++ i :: q) = some nC →
      nA.data.hasFinally = true → nC.data.hasFinally = true →
      ∃ l₁ e l₂ e' l₃, (cancelT t .none c).2.1 = l₁ ++ e :: l₂ ++ e' :: l₃ ∧
        isFinEv nA.data.finId e = true ∧ isFinEv nC.data.finId e' = true) := by
  have hres : applyOp (.cancel []) t c =
      ((cancelT t .none c).1, .hook t.data.hookId :: (cancelT t .none c).2.1,
       (cancelT t .none c).2.2) := by
    rw [applyOp_cancel, show ([] : List Nat).reverse = [] from rfl,
      cancelAtRev_nil_pending t c hroot]
  refine ⟨by rw [hres], ?_, ?_, ?_, ?_⟩
  · rw [hres]
    have hcnt := countFin_cancelT t .none c f
    simp only [countFinEvents, List.countP_cons] at hcnt ⊢
    simp [isFinEv, hcnt, hcount]
  · obtain ⟨l₁, e, l₂, heq, hev, hmem⟩ := finEv_after_setCanceled p t .none c n hn hf
    rw [hfid] at hev
    rw [htid] at hmem
    exact ⟨l₁, e, l₂, heq, hev, hmem⟩
  · intro d cs k c' hd
    rw [cancelT_mk]
    simp [finStep, hd]
  · intro pA i q nA nC hA hC hfA hfC
    exact finEv_ancestor_order pA t .none c i q nA nC hA hC hfA hfC

/-- C5 is falsified by the code: `then`'s wrappers call the user handlers
unconditionally, so when a handler is omitted (`undefined`) and the wrapper
runs on a non-canceled task, it raises a TypeError instead of passing the
fulfillment value (resp. the rejection error) through as standard chaining
semantics prescribe. -/
theorem claim_C5_bug :
    thenWrapOnFulfilled Nat none .pending 7 = .typeError ∧
    specOmittedOnFulfilled Nat 7 = .result (some 7) ∧
    thenWrapOnFulfilled Nat none .pending 7 ≠ specOmittedOnFulfilled Nat 7 ∧
    thenWrapOnRejected Nat none .pending 5 = .typeError ∧
    specOmittedOnRejected Nat 5 = .raises 5 ∧
    thenWrapOnRejected Nat none .pending 5 ≠ specOmittedOnRejected Nat 5 := by
  refine ⟨rfl, rfl, ?_, rfl, rfl, ?_⟩ <;> decide

/-- C6: once a Task is Canceled its computation callbacks never run: the
`then` wrappers skip the user handlers when the child task is Canceled
(returning `undefined` without calling them), and settling a Canceled task —
the executor's wrapped resolve/reject for a root, or the deferred handler
invocation for a derived task — is suppressed entirely: no state change and
no settlement event.  In particular, a then-derived child of a normally
resolved task whose `cancel()` ran before its deferred handler never runs
that handler. -/
theorem claim_C6 :
    (∀ (α : Type) (f : α → α) (v : α),
      thenWrapOnFulfilled α (some f) .canceled v = .result none) ∧
    (∀ (α : Type) (f : α → α) (e : α),
      thenWrapOnRejected α (some f) .canceled e = .result none) ∧
    (∀ (t : TaskTree) (c : Nat) (p : List Nat) (n : TaskTree) (ok : Bool),
      nodeAt t p = some n → n.rootState = .canceled →
      applyOp (.settle p ok) t c = (t, [], c)) := by
  refine ⟨fun α f v => rfl, fun α f e => rfl, ?_⟩
  intro t c p n ok hn hc
  exact applyOp_settle_canceled ok c hn hc

/-- C7: an error thrown by a finalizer during cancellation is caught and
silently discarded — `runFinally` yields `undefined` in place of a result
and no error escapes — and the propagation still visits and cancels every
registered descendant; a child with its own finalizer still runs it
normally after a throwing parent finalizer, receiving `undefined`. -/
theorem claim_C7 :
    (∀ (t : TaskTree) (fr : FinRes) (c : Nat), allCanceledT (cancelT t fr c).1 = true) ∧
    (∀ (d : TaskData) (c : Nat), d.finThrows = true → runFinallyRes d c = (.none, c)) ∧
    (∀ (dA dB : TaskData) (csB rest : TaskForest) (c : Nat),
      dA.hasFinally = true → dA.finThrows = true → dB.hasFinally = true →
      ∃ tail, (cancelT (.mk dA (.cons (.mk dB csB) rest)) .none c).2.1 =
        .setCanceled dA.tid :: .finRun dA.finId true :: .setCanceled dB.tid ::
        .finRun dB.finId dB.finThrows :: tail) := by
  refine ⟨allCanceled_cancelT, ?_, ?_⟩
  · intro d c hthr
    simp [runFinallyRes, hthr]
  · intro dA dB csB rest c hfA hthrA hfB
    refine ⟨(cancelF csB (runFinallyRes dB c).1 (runFinallyRes dB c).2).2.1 ++
      (cancelF rest .none (cancelT (.mk dB csB) .none c).2.2).2.1, ?_⟩
    rw [cancelT_mk, cancelF_cons, cancelT_mk]
    simp [finStep, hfA, hthrA, hfB, runFinallyRes]
    rw [cancelT_mk]
    simp [finStep, hfB, runFinallyRes]

/-- C8: over every sequence of public operations starting from a freshly
constructed (Pending, childless) root Task, state evolution at every task is
monotonic: a task either keeps its state or leaves Pending for exactly one
of Fulfilled, Rejected or Canceled; Canceled is absorbing; and a settled
(Fulfilled or Rejected) task never changes state again — in particular the
propagation routine never moves a settled task into Canceled. -/
theorem claim_C8 (d0 : TaskData) (ops more : List Op) (c : Nat) (p : List Nat) (s s' : TState)
    (h0 : d0.state = .pending)
    (h1 : stateAt (run ops (.mk d0 .nil) c).1 p = some s)
    (h2 : stateAt (run (ops ++ more) (.mk d0 .nil) c).1 p = some s') :
    stateLe s s' ∧ (s = .canceled → s' = .canceled) ∧ (isSettled s = true → s' = s) := by
  have hinv0 : invT true (TaskTree.mk d0 .nil) = true := by
    rw [invT_mk, h0]
    simp [isSettled]
  have hinv1 := run_inv ops (.mk d0 .nil) c hinv0
  obtain ⟨s₂, hs₂, hle⟩ :=
    run_mono more (run ops (.mk d0 .nil) c).1 (run ops (.mk d0 .nil) c).2.2 p s hinv1 h1
  have happ := run_append ops more (.mk d0 .nil) c
  rw [happ.1] at h2
  obtain rfl : s₂ = s' := Option.some.inj (hs₂.symm.trans h2)
  refine ⟨hle, ?_, ?_⟩
  · intro hcanc
    rcases hle with h | h
    · rw [h, hcanc]
    · rw [hcanc] at h
      exact absurd h (by simp)
  · intro hset
    rcases hle with h | h
    · exact h
    · rw [h] at hset
      simp [isSettled] at hset

/-- C9: a Task's user cancel hook runs at most once over any sequence of
public operations, however often and wherever `cancel()` is called; and
`cancel()` on a Pending root Task synchronously sets its state to Canceled
and invokes its hook exactly once, as the first event of the call. -/
theorem claim_C9 (ops : List Op) (t : TaskTree) (c c' : Nat) (d : TaskData) (cs : TaskForest)
    (hp : d.state = .pending) :
    countHook (run ops t c).2.1 ≤ 1 ∧
    (applyOp (.cancel []) (.mk d cs) c').1.rootState = .canceled ∧
    countHook (applyOp (.cancel []) (.mk d cs) c').2.1 = 1 ∧
    (applyOp (.cancel []) (.mk d cs) c').2.1 =
      .hook d.hookId :: (cancelT (.mk d cs) .none c').2.1 := by
  have hroot : (TaskTree.mk d cs).rootState = .pending := hp
  have hres : applyOp (.cancel []) (.mk d cs) c' =
      ((cancelT (.mk d cs) .none c').1,
       .hook (TaskTree.mk d cs).data.hookId :: (cancelT (.mk d cs) .none c').2.1,
       (cancelT (.mk d cs) .none c').2.2) := by
    rw [applyOp_cancel, show ([] : List Nat).reverse = [] from rfl,
      cancelAtRev_nil_pending _ c' hroot]
  refine ⟨(run_hook ops t c).1, ?_, ?_, by rw [hres]; rfl⟩
  · rw [hres]
    exact rootState_cancelT _ _ _
  · rw [hres]
    have h := countHook_cancelT (TaskTree.mk d cs) .none c'
    simp only [countHook] at h ⊢
    simp [List.countP_cons, isHookEv, h]

/-- C10: during propagation a task with no registered finalizer forwards the
incoming finally-result to its children unchanged — in a chain A → B → C
where A's finalizer returns a pending thenable and B has no finalizer, C's
finalizer is attached to A's thenable itself, and C's children receive the
thenable chained from it; and the propagation routine never invokes any
user cancel hook, so only the directly-canceled task (or the Pending
ancestor its cancellation escalated to) can run one. -/
theorem claim_C10 (dA dB dC : TaskData) (csC : TaskForest) (c : Nat)
    (hfA : dA.hasFinally = true) (hnA : dA.finThrows = false)
    (hrA : dA.finReturnsThenable = true)
    (hfB : dB.hasFinally = false) (hfC : dC.hasFinally = true) :
    (cancelT (.mk dA (.cons (.mk dB (.cons (.mk dC csC) .nil)) .nil)) .none c).2.1 =
      .setCanceled dA.tid :: .finRun dA.finId false :: .setCanceled dB.tid ::
      .setCanceled dC.tid :: .attach dC.finId c (c + 1) ::
      (cancelF csC (.thenable (c + 1)) (c + 2)).2.1 ∧
    (∀ (t : TaskTree) (fr : FinRes) (c' : Nat), countHook (cancelT t fr c').2.1 = 0) := by
  refine ⟨?_, countHook_cancelT⟩
  rw [cancelT_mk, cancelF_cons, cancelT_mk, cancelF_cons, cancelT_mk]
  simp [finStep, hfA, hnA, hrA, hfB, hfC, runFinallyRes]

/-! ## Concrete instances for the witnesses -/

/-- A sample task datum without a registered finalizer. -/
def sampleData (tid : Nat) (s : TState) : TaskData :=
  ⟨tid, s, tid + 100, false, 0, false, false⟩

/-- A sample task datum with a registered finalizer. -/
def sampleFinData (tid fid : Nat) (s : TState) (thr ret : Bool) : TaskData :=
  ⟨tid, s, tid + 100, true, fid, thr, ret⟩

/-- A Pending leaf task. -/
def sampleChild : TaskTree := .mk (sampleData 1 .pending) .nil

/-- A Pending leaf task with a finalizer. -/
def sampleFinChild : TaskTree := .mk (sampleFinData 1 5 .pending false false) .nil

/-- A Pending root with one Pending finalizer child. -/
def sampleFinChain : TaskTree := .mk (sampleData 0 .pending) (.cons sampleFinChild .nil)

/-- A Fulfilled root with one Pending child. -/
def sampleFulfilled : TaskTree := .mk (sampleData 0 .fulfilled) (.cons sampleChild .nil)

/-- A childless Canceled task. -/
def sampleCanceled : TaskTree := .mk (sampleData 2 .canceled) .nil

theorem claim_C1_witness :
    (applyOp (.cancel [0]) (.mk (sampleData 0 .pending) (.cons sampleChild .nil)) 0).1.rootState
      = .canceled :=
  (claim_C1 (sampleData 0 .pending) (.cons sampleChild .nil) 0 0 sampleChild rfl rfl rfl).1

theorem claim_C2_witness :
    countFinEvents 5 (applyOp (.cancel []) sampleFinChain 0).2.1 = 1 :=
  (claim_C2 sampleFinChain 0 5 1 [0] sampleFinChild rfl rfl rfl rfl rfl rfl).2.1

theorem claim_C3_witness :
    applyOp (.cancel []) sampleCanceled 0 = (sampleCanceled, [], 0) :=
  claim_C3 sampleCanceled 0 [] sampleCanceled rfl (by decide)

theorem claim_C4_witness :
    (applyOp (.cancel [0]) sampleFulfilled 0).1.rootState = .fulfilled :=
  (claim_C4 (sampleData 0 .fulfilled) (.cons sampleChild .nil) 0 0 sampleChild rfl rfl rfl).2.1

theorem claim_C6_witness :
    applyOp (.settle [] true) sampleCanceled 0 = (sampleCanceled, [], 0) :=
  claim_C6.2.2 sampleCanceled 0 [] sampleCanceled true rfl rfl

theorem claim_C7_witness :
    ∃ tail, (cancelT (.mk (sampleFinData 0 7 .pending true false)
        (.cons (.mk (sampleFinData 1 8 .pending false false) .nil) .nil)) .none 0).2.1 =
      .setCanceled 0 :: .finRun 7 true :: .setCanceled 1 :: .finRun 8 false :: tail :=
  claim_C7.2.2 (sampleFinData 0 7 .pending true false)
    (sampleFinData 1 8 .pending false false) .nil .nil 0 rfl rfl rfl

theorem claim_C8_witness : stateLe .pending .canceled :=
  (claim_C8 (sampleData 0 .pending) [.addChild [] (sampleData 1 .pending)] [.cancel [0]]
    0 [] .pending .canceled rfl rfl rfl).1

theorem claim_C9_witness :
    countHook (applyOp (.cancel []) (.mk (sampleData 0 .pending) .nil) 0).2.1 = 1 :=
  (claim_C9 [] (.mk (sampleData 0 .pending) .nil) 0 0 (sampleData 0 .pending) .nil rfl).2.2.1

theorem claim_C10_witness :
    (cancelT (.mk (sampleFinData 0 7 .pending false true)
        (.cons (.mk (sampleData 1 .pending)
          (.cons (.mk (sampleFinData 2 9 .pending false false) .nil) .nil)) .nil)) .none 0).2.1 =
      [.setCanceled 0, .finRun 7 false, .setCanceled 1, .setCanceled 2, .attach 9 0 1] :=
  (claim_C10 (sampleFinData 0 7 .pending false true) (sampleData 1 .pending)
    (sampleFinData 2 9 .pending false false) .nil 0 rfl rfl rfl rfl rfl).1

end TaskModel
